import Mathlib

/-!
Verification of the core of the bfc Brainfuck-to-LLVM compiler:
the IR data model with deep structural equality (`bfir.cpp`), the
recursive-descent parser (`parser.cpp`), the six peephole optimisation
passes and their fixed pipeline (`optimisations.cpp`), and the lowering
of the IR to a control-flow graph of basic blocks (`BFLoop::compile`
and friends in `bfir.cpp`).
-/

namespace Bfc

/-- The IR instruction tree from `bfir.hpp`: `BFIncrement` (CellDelta,
add to the current cell), `BFDataIncrement` (PointerDelta, add to the
cell pointer), `BFRead`, `BFWrite`, `BFLoop` (owning its body Program),
and `BFSet`.
Modelled from the spec: the `BFSet` class declaration is absent from
`src/` (only its callers in `optimisations.cpp` and its tests in
`run_tests.cpp` are present); per the spec it is a further distinct
variant holding one integer value (the absolute value assigned to the
current cell). -/
inductive BFInstruction : Type where
  | increment (amount : Int)
  | dataIncrement (amount : Int)
  | read : BFInstruction
  | write : BFInstruction
  | set (amount : Int)
  | loop (body : List BFInstruction)

/-- A `BFProgram` (`bfir.hpp`) is a vector of instructions; we embed it
as the list of its elements in order. -/
abbrev BFProgram := List BFInstruction

mutual

/-- `operator==` on `BFInstruction` from `bfir.cpp`: first the variants
(typeids) must agree; `BFIncrement` and `BFDataIncrement` compare their
`Amount`, `BFLoop` compares bodies (size check plus element-wise
comparison, expressed here as simultaneous structural recursion), and
the remaining payload-free variants (`BFRead`, `BFWrite`) compare equal.
Modelled from the spec: the `BFSet` comparison branch belongs to the
missing `BFSet` code; per the spec and the `SetEquality` test two
`BFSet` compare equal iff their values do. -/
def instrEq : BFInstruction → BFInstruction → Bool
  | .increment a, .increment b => a == b
  | .dataIncrement a, .dataIncrement b => a == b
  | .set a, .set b => a == b
  | .read, .read => true
  | .write, .write => true
  | .loop p, .loop q => progEq p q
  | _, _ => false

/-- `operator==` on `BFProgram` from `bfir.cpp`: equal sizes and
element-wise `operator==` in order. -/
def progEq : List BFInstruction → List BFInstruction → Bool
  | [], [] => true
  | x :: xs, y :: ys => instrEq x y && progEq xs ys
  | _, _ => false

end

/-! ## Parser (`parser.cpp`) -/

/-- The `MalformedProgram` conditions reported by the parser: an
unmatched `[` or an unmatched `]`, each with its source position.
(The C++ prints the message and calls `exit`; we embed failure as an
`Except` error value.) -/
inductive ParseError : Type where
  | unmatchedOpen (pos : Nat)
  | unmatchedClose (pos : Nat)

/-- One step of the depth counter of `findMatchingClose`: `[` increments
`OpenCount`, `]` decrements it, anything else leaves it. -/
def bracketStep (c : Char) (openCount : Int) : Int :=
  if c = '[' then openCount + 1
  else if c = ']' then openCount - 1
  else openCount

/-- The scan loop of `findMatchingClose` (`parser.cpp`): walk the
remaining characters (the suffix of the source starting at index `i`),
updating the depth counter, and return the first index where it hits 0;
`none` when the scan exhausts the string (the C++ returns `-1`). -/
def findMatchingCloseFrom : List Char → Nat → Int → Option Nat
  | [], _, _ => none
  | c :: rest, i, openCount =>
    let oc := bracketStep c openCount
    if oc = 0 then some i else findMatchingCloseFrom rest (i + 1) oc

/-- `findMatchingClose(Source, OpenIndex)` from `parser.cpp`: scan
forward from `OpenIndex` with a depth counter starting at 0. -/
def findMatchingClose (source : List Char) (openIndex : Nat) : Option Nat :=
  findMatchingCloseFrom (source.drop openIndex) openIndex 0

/-- Cons one freshly parsed instruction onto the result of parsing the
remaining text, propagating a parse failure (in the C++ the failure
exits the process, so nothing is appended after it). -/
def consParsed (inst : BFInstruction) :
    Except ParseError (List BFInstruction) →
    Except ParseError (List BFInstruction)
  | .ok t => .ok (inst :: t)
  | .error e => .error e

/-- `parseSourceBetween(Source, From, To)` from `parser.cpp`, carried
out on the suffix of the source text: the first argument is
`source.drop i`, `i` is the scan position `I` and `stop` is `To`.
Each of the six simple markers appends its instruction; `[` finds its
matching `]` (scanning the whole rest of the string, not just up to
`stop`), recursively parses the substring strictly between the
brackets, appends a `loop`, and resumes just after the close bracket;
a `]` met directly by this scan reports `unmatchedClose`; every other
character is skipped as a comment.  (The empty-list case is only
reachable when `stop` exceeds the source length, which never happens
in the calls below.) -/
def parseFrom : List Char → Nat → Nat → Except ParseError (List BFInstruction)
  | [], _, _ => .ok []
  | c :: rest, i, stop =>
    if stop ≤ i then .ok []
    else if c = '+' then consParsed (.increment 1) (parseFrom rest (i + 1) stop)
    else if c = '-' then consParsed (.increment (-1)) (parseFrom rest (i + 1) stop)
    else if c = '>' then consParsed (.dataIncrement 1) (parseFrom rest (i + 1) stop)
    else if c = '<' then consParsed (.dataIncrement (-1)) (parseFrom rest (i + 1) stop)
    else if c = ',' then consParsed .read (parseFrom rest (i + 1) stop)
    else if c = '.' then consParsed .write (parseFrom rest (i + 1) stop)
    else if c = '[' then
      match findMatchingCloseFrom (c :: rest) i 0 with
      | none => .error (.unmatchedOpen i)
      | some m =>
        match parseFrom rest (i + 1) m with
        | .error e => .error e
        | .ok body =>
          consParsed (.loop body) (parseFrom (rest.drop (m - i)) (m + 1) stop)
    else if c = ']' then .error (.unmatchedClose i)
    else parseFrom rest (i + 1) stop
termination_by l _ _ => l.length
decreasing_by
  all_goals simp [List.length_drop]
  all_goals omega

/-- `parseSource` from `parser.cpp`: parse the whole text. -/
def parseSource (source : List Char) : Except ParseError (List BFInstruction) :=
  parseFrom source 0 source.length

/-! ## Optimisation passes (`optimisations.cpp`) -/

/-- The scan loop of `combineIncrements`: `last` is the pending
instruction (`Last` in the C++, `none` for the null pointer).  When the
pending instruction and the current one are both `BFIncrement`, their
amounts are summed (`Sum = Current + Last`); a zero sum clears the
pending slot, otherwise the merged increment becomes pending.  On a
variant mismatch the pending instruction is emitted and the current one
becomes pending.  The final pending instruction, if any, is emitted. -/
def combineIncrementsAux : Option BFInstruction → List BFInstruction → List BFInstruction
  | none, [] => []
  | some l, [] => [l]
  | none, c :: rest => combineIncrementsAux (some c) rest
  | some l, c :: rest =>
    match l, c with
    | .increment a, .increment b =>
      if b + a = 0 then combineIncrementsAux none rest
      else combineIncrementsAux (some (.increment (b + a))) rest
    | lst, cur => lst :: combineIncrementsAux (some cur) rest

/-- `combineIncrements` from `optimisations.cpp`. -/
def combineIncrements (sequence : List BFInstruction) : List BFInstruction :=
  combineIncrementsAux none sequence

/-- The scan loop of `combineDataIncrements`: identical to
`combineIncrementsAux` with `BFDataIncrement` in place of
`BFIncrement`. -/
def combineDataIncrementsAux : Option BFInstruction → List BFInstruction → List BFInstruction
  | none, [] => []
  | some l, [] => [l]
  | none, c :: rest => combineDataIncrementsAux (some c) rest
  | some l, c :: rest =>
    match l, c with
    | .dataIncrement a, .dataIncrement b =>
      if b + a = 0 then combineDataIncrementsAux none rest
      else combineDataIncrementsAux (some (.dataIncrement (b + a))) rest
    | lst, cur => lst :: combineDataIncrementsAux (some cur) rest

/-- `combineDataIncrements` from `optimisations.cpp`. -/
def combineDataIncrements (sequence : List BFInstruction) : List BFInstruction :=
  combineDataIncrementsAux none sequence

/-- `markKnownZero` from `optimisations.cpp`: insert `BFSet 0` at the
front, since cell 0 is 0 at the start of execution. -/
def markKnownZero (sequence : List BFInstruction) : List BFInstruction :=
  .set 0 :: sequence

/-- The scan loop of `combineSetAndIncrements`: a pending `BFSet v`
followed by a `BFIncrement d` merges into a pending
`BFSet (v + d)` (`Sum = Last + Current`, never dropped); otherwise the
pending instruction is emitted and the current one becomes pending. -/
def combineSetAndIncrementsAux : Option BFInstruction → List BFInstruction → List BFInstruction
  | none, [] => []
  | some l, [] => [l]
  | none, c :: rest => combineSetAndIncrementsAux (some c) rest
  | some l, c :: rest =>
    match l, c with
    | .set v, .increment d => combineSetAndIncrementsAux (some (.set (v + d))) rest
    | lst, cur => lst :: combineSetAndIncrementsAux (some cur) rest

/-- `combineSetAndIncrements` from `optimisations.cpp`. -/
def combineSetAndIncrements (sequence : List BFInstruction) : List BFInstruction :=
  combineSetAndIncrementsAux none sequence

/-- The scan loop of `combineSets`: two adjacent `BFSet` keep only the
later one (the earlier pending `BFSet` is dead and is dropped). -/
def combineSetsAux : Option BFInstruction → List BFInstruction → List BFInstruction
  | none, [] => []
  | some l, [] => [l]
  | none, c :: rest => combineSetsAux (some c) rest
  | some l, c :: rest =>
    match l, c with
    | .set _, .set w => combineSetsAux (some (.set w)) rest
    | lst, cur => lst :: combineSetsAux (some cur) rest

/-- `combineSets` from `optimisations.cpp` (anonymous namespace). -/
def combineSets (sequence : List BFInstruction) : List BFInstruction :=
  combineSetsAux none sequence

/-- `simplifyZeroingLoop` from `optimisations.cpp`: every top-level
`BFLoop` whose body compares `operator==`-equal to the one-instruction
program `[BFIncrement (-1)]` is replaced by `BFSet 0`; every other
instruction is pushed through unchanged. -/
def simplifyZeroingLoop (sequence : List BFInstruction) : List BFInstruction :=
  sequence.map fun current =>
    match current with
    | .loop body => if progEq body [.increment (-1)] then .set 0 else .loop body
    | other => other

/-- `applyAllPasses` from `optimisations.cpp`: the fixed pipeline. -/
def applyAllPasses (initialProgram : List BFInstruction) : List BFInstruction :=
  combineSetAndIncrements
    (simplifyZeroingLoop
      (combineSets
        (markKnownZero
          (combineDataIncrements
            (combineIncrements initialProgram)))))

/-! ## Lowering to basic blocks (`bfir.cpp`)

The `compile` methods emit LLVM operations into basic blocks.  We embed
a basic block as the list of (abstract) operations it holds plus its
optional terminator, and the function under construction as the list of
its blocks in creation order; a block is named by its creation index. -/

/-- The abstract straight-line operations emitted by the `compile`
methods of `bfir.cpp`, one constructor per LLVM instruction created. -/
inductive Op : Type where
  | loadCellIndex
  | gepCurrentCell
  | loadCellValue
  | addCellValue (amount : Int)
  | storeCellValue
  | addCellIndex (amount : Int)
  | storeCellIndex
  | callGetchar
  | truncToByte
  | storeInputByte
  | sextToInt
  | callPutchar
  | storeConstCell (value : Int)
  | icmpEqZero

/-- Block terminators: `CreateBr`, `CreateCondBr` (with the target
taken when the current cell is zero first, as in `BFLoop::compile`),
and `CreateRet`. -/
inductive Term : Type where
  | br (target : Nat)
  | condBr (ifZero : Nat) (ifNonzero : Nat)
  | ret

/-- A basic block under construction: emitted operations in order and
an optional terminator. -/
structure Block : Type where
  ops : List Op
  term : Option Term

/-- The function under construction: its basic blocks in creation
order.  Block `i` is `blocks[i]`; a fresh block gets the next index. -/
structure CodegenState : Type where
  blocks : List Block

/-- Replace the block at an index (no change when out of range). -/
def setBlockAt : List Block → Nat → Block → List Block
  | [], _, _ => []
  | _ :: rest, 0, b => b :: rest
  | x :: rest, i + 1, b => x :: setBlockAt rest i b

/-- Read the block at an index (an empty unterminated block when out of
range). -/
def getBlock (s : CodegenState) (i : Nat) : Block :=
  s.blocks.getD i ⟨[], none⟩

/-- Append operations at the end of block `i` (`Builder.SetInsertPoint`
followed by `Create...` calls). -/
def appendOps (s : CodegenState) (i : Nat) (ops : List Op) : CodegenState :=
  ⟨setBlockAt s.blocks i ⟨(getBlock s i).ops ++ ops, (getBlock s i).term⟩⟩

/-- Set the terminator of block `i`. -/
def setTerm (s : CodegenState) (i : Nat) (t : Term) : CodegenState :=
  ⟨setBlockAt s.blocks i ⟨(getBlock s i).ops, some t⟩⟩

/-- `BasicBlock::Create`: append a fresh empty block, returning its
index. -/
def newBlock (s : CodegenState) : CodegenState × Nat :=
  (⟨s.blocks ++ [⟨[], none⟩]⟩, s.blocks.length)

/-- Operations of `BFIncrement::compile`: load the cell index, compute
the current cell's address, load its value, add `Amount`, store back. -/
def incrementOps (amount : Int) : List Op :=
  [.loadCellIndex, .gepCurrentCell, .loadCellValue,
   .addCellValue amount, .storeCellValue]

/-- Operations of `BFDataIncrement::compile`: load the cell index, add
`Amount`, store the new index. -/
def dataIncrementOps (amount : Int) : List Op :=
  [.loadCellIndex, .addCellIndex amount, .storeCellIndex]

/-- Operations of `BFRead::compile`: load the cell index, compute the
cell's address, call `getchar`, truncate to a byte, store it. -/
def readOps : List Op :=
  [.loadCellIndex, .gepCurrentCell, .callGetchar, .truncToByte,
   .storeInputByte]

/-- Operations of `BFWrite::compile`: load the cell index, compute the
cell's address, load its value, sign-extend, call `putchar`. -/
def writeOps : List Op :=
  [.loadCellIndex, .gepCurrentCell, .loadCellValue, .sextToInt,
   .callPutchar]

/-- Modelled from the spec: `BFSet::compile` belongs to the missing
`BFSet` code; per the spec it is straight-line and assigns the absolute
value to the current cell, so it addresses the cell and stores the
constant. -/
def setOps (value : Int) : List Op :=
  [.loadCellIndex, .gepCurrentCell, .storeConstCell value]

/-- The loop-header operations of `BFLoop::compile`: load the cell
index, compute the current cell's address, load its value, compare it
to zero (the conditional branch is the block's terminator). -/
def loopHeaderOps : List Op :=
  [.loadCellIndex, .gepCurrentCell, .loadCellValue, .icmpEqZero]

mutual

/-- The `compile` methods of `bfir.cpp`.  A straight-line instruction
appends its operations to the given block `bb` and returns `bb`.
`BFLoop::compile` creates `loop_header`, terminates `bb` with a branch
to it, creates `loop_body` and `loop_after`, fills the header (loads,
compare, conditional branch to `loop_after` when zero else
`loop_body`), compiles its body starting in `loop_body` threading the
current block, terminates the final body block with a branch back to
the header, and returns `loop_after`. -/
def compileInst : BFInstruction → CodegenState → Nat → CodegenState × Nat
  | .increment n, s, bb => (appendOps s bb (incrementOps n), bb)
  | .dataIncrement n, s, bb => (appendOps s bb (dataIncrementOps n), bb)
  | .read, s, bb => (appendOps s bb readOps, bb)
  | .write, s, bb => (appendOps s bb writeOps, bb)
  | .set v, s, bb => (appendOps s bb (setOps v), bb)
  | .loop body, s, bb =>
    let hdr := (newBlock s).2
    let s1 := (newBlock s).1
    let s2 := setTerm s1 bb (.br hdr)
    let bodyId := (newBlock s2).2
    let s3 := (newBlock s2).1
    let afterId := (newBlock s3).2
    let s4 := (newBlock s3).1
    let s5 := appendOps s4 hdr loopHeaderOps
    let s6 := setTerm s5 hdr (.condBr afterId bodyId)
    let r := compileProg body s6 bodyId
    let s8 := setTerm r.1 r.2 (.br hdr)
    (s8, afterId)

/-- The lowering loop over a program (the `for` loops in
`BFLoop::compile` and `compileProgram`): compile each instruction in
turn, threading the current block forward. -/
def compileProg : List BFInstruction → CodegenState → Nat → CodegenState × Nat
  | [], s, bb => (s, bb)
  | i :: rest, s, bb =>
    let r := compileInst i s bb
    compileProg rest r.1 r.2

end

/-- The straight-line instructions: everything except `BFLoop`. -/
def instStraightLine : BFInstruction → Bool
  | .loop _ => false
  | .increment _ => true
  | .dataIncrement _ => true
  | .read => true
  | .write => true
  | .set _ => true

/-- The state of the function under construction right after
`BFLoop::compile` has emitted the loop header and before it lowers the
loop body: `loop_header` is created, the previous block `bb` branches
to it, `loop_body` and `loop_after` are created, and the header holds
its loads, the zero comparison and the conditional branch (to
`loop_after` when zero, else `loop_body`). -/
def loopSetupState (s : CodegenState) (bb : Nat) : CodegenState :=
  let hdr := (newBlock s).2
  let s1 := (newBlock s).1
  let s2 := setTerm s1 bb (.br hdr)
  let s3 := (newBlock s2).1
  let s4 := (newBlock s3).1
  let s5 := appendOps s4 hdr loopHeaderOps
  setTerm s5 hdr (.condBr (newBlock s3).2 (newBlock s2).2)

mutual

/-- No `BFSet` occurs anywhere in the instruction, loop bodies
included. -/
def instrNoSet : BFInstruction → Bool
  | .set _ => false
  | .loop body => progNoSet body
  | .increment _ => true
  | .dataIncrement _ => true
  | .read => true
  | .write => true

/-- No `BFSet` occurs anywhere in the program, loop bodies included. -/
def progNoSet : List BFInstruction → Bool
  | [] => true
  | i :: rest => instrNoSet i && progNoSet rest

end

/-- Is the instruction a `BFIncrement` (a CellDelta)? -/
def isCellDelta : BFInstruction → Bool
  | .increment _ => true
  | .dataIncrement _ => false
  | .read => false
  | .write => false
  | .set _ => false
  | .loop _ => false

/-- The amount of a `BFIncrement` (0 for any other variant; only used
on CellDeltas). -/
def cellDeltaAmount : BFInstruction → Int
  | .increment a => a
  | _ => 0

/-- Following the spec's words for `combineCellDeltas`: replace each
maximal run of adjacent top-level CellDelta instructions by one
CellDelta holding the run's sum, emit nothing for a run summing to 0,
and pass every other instruction through unchanged in order. -/
def specCombineCellDeltas : List BFInstruction → List BFInstruction
  | [] => []
  | i :: rest =>
    if isCellDelta i then
      (if cellDeltaAmount i +
            ((rest.takeWhile isCellDelta).map cellDeltaAmount).sum = 0
        then []
        else [.increment (cellDeltaAmount i +
          ((rest.takeWhile isCellDelta).map cellDeltaAmount).sum)]) ++
        specCombineCellDeltas (rest.dropWhile isCellDelta)
    else
      i :: specCombineCellDeltas rest
termination_by l => l.length
decreasing_by
  all_goals simp
  all_goals exact Nat.lt_succ_of_le (List.Sublist.length_le (List.dropWhile_sublist _))

/-- Following the spec's words: the body of a self-zeroing loop is
exactly the single instruction "decrement by one". -/
def isZeroingBody : List BFInstruction → Bool
  | [.increment a] => a == -1
  | _ => false

/-- The loop bodies of the top-level loops of a program, in order. -/
def topLoopBodies (l : List BFInstruction) : List (List BFInstruction) :=
  l.filterMap fun i =>
    match i with
    | .loop b => some b
    | _ => none

/-- The loop bodies contributed by the pending slot of a merge scan. -/
def pendingLoopBodies : Option BFInstruction → List (List BFInstruction)
  | none => []
  | some i => topLoopBodies [i]

/-- What the spec's run-summing description produces for a scan state
with a pending instruction: the pending instruction rejoins the input
still to be scanned. -/
def pendingSpec : Option BFInstruction → List BFInstruction → List BFInstruction
  | none, l => specCombineCellDeltas l
  | some p, l => specCombineCellDeltas (p :: l)

/-! ## Structural equality is propositional equality -/

mutual

theorem instrEq_iff_eq : ∀ (x y : BFInstruction), instrEq x y = true ↔ x = y
  | .increment a, y => by cases y <;> simp [instrEq]
  | .dataIncrement a, y => by cases y <;> simp [instrEq]
  | .read, y => by cases y <;> simp [instrEq]
  | .write, y => by cases y <;> simp [instrEq]
  | .set a, y => by cases y <;> simp [instrEq]
  | .loop p, y => by
    cases y with
    | loop q => simpa [instrEq] using progEq_iff_eq p q
    | _ => simp [instrEq]

theorem progEq_iff_eq : ∀ (p q : List BFInstruction), progEq p q = true ↔ p = q
  | [], [] => by simp [progEq]
  | [], _ :: _ => by simp [progEq]
  | _ :: _, [] => by simp [progEq]
  | x :: xs, y :: ys => by
    simp [progEq, instrEq_iff_eq x y, progEq_iff_eq xs ys]

end

/-- C2: `operator==` on instructions holds iff the two instructions
have the same variant and equal payloads — for `BFIncrement`,
`BFDataIncrement` and `BFSet` iff the amounts are equal (in particular
`BFSet 1 ≠ BFSet 2`), `BFRead` equals `BFRead`, `BFWrite` equals
`BFWrite`, two loops are equal iff their bodies have the same length
and are element-wise equal recursively, and two programs are equal iff
they have the same length and pairwise-equal elements in order;
altogether the relation coincides with propositional equality of the
trees. -/
theorem equality_same_variant_equal_payload :
    (∀ x y : BFInstruction, instrEq x y = true ↔ x = y)
    ∧ (∀ a b : Int, instrEq (.increment a) (.increment b) = true ↔ a = b)
    ∧ (∀ a b : Int, instrEq (.dataIncrement a) (.dataIncrement b) = true ↔ a = b)
    ∧ (∀ a b : Int, instrEq (.set a) (.set b) = true ↔ a = b)
    ∧ instrEq (.set 1) (.set 2) = false
    ∧ instrEq .read .read = true
    ∧ instrEq .write .write = true
    ∧ (∀ p q : List BFInstruction, instrEq (.loop p) (.loop q) = true ↔
        (p.length = q.length ∧
          ∀ n h₁ h₂, instrEq (p.get ⟨n, h₁⟩) (q.get ⟨n, h₂⟩) = true))
    ∧ (∀ p q : List BFInstruction, progEq p q = true ↔
        (p.length = q.length ∧
          ∀ n h₁ h₂, instrEq (p.get ⟨n, h₁⟩) (q.get ⟨n, h₂⟩) = true)) := by
  have hprog : ∀ p q : List BFInstruction, progEq p q = true ↔
      (p.length = q.length ∧
        ∀ n h₁ h₂, instrEq (p.get ⟨n, h₁⟩) (q.get ⟨n, h₂⟩) = true) := by
    intro p q
    rw [progEq_iff_eq, List.ext_get_iff]
    constructor
    · rintro ⟨hl, hget⟩
      exact ⟨hl, fun n h₁ h₂ => (instrEq_iff_eq _ _).mpr (hget n h₁ h₂)⟩
    · rintro ⟨hl, hget⟩
      exact ⟨hl, fun n h₁ h₂ => (instrEq_iff_eq _ _).mp (hget n h₁ h₂)⟩
  refine ⟨instrEq_iff_eq, ?_, ?_, ?_, rfl, rfl, rfl, ?_, hprog⟩
  · intro a b; simp [instrEq]
  · intro a b; simp [instrEq]
  · intro a b; simp [instrEq]
  · intro p q
    rw [show instrEq (.loop p) (.loop q) = progEq p q from rfl]
    exact hprog p q

/-- Witness for C2 at concrete inputs: applying the characterisation to
`BFSet 1` and to the one-element programs `[BFRead]`. -/
theorem equality_same_variant_equal_payload_witness :
    instrEq (.set 1) (.set 1) = true ∧ progEq [.read] [.read] = true := by
  have h := equality_same_variant_equal_payload
  refine ⟨(h.2.2.2.1 1 1).mpr rfl, ?_⟩
  refine (h.2.2.2.2.2.2.2.2 [.read] [.read]).mpr ⟨rfl, ?_⟩
  intro n h₁ h₂
  have hn : n = 0 := Nat.lt_one_iff.mp (by simpa using h₁)
  subst hn
  rfl

/-! ## The pipeline composition -/

/-- C4: `applyAllPasses` is exactly the six passes applied once each in
the fixed order `combineIncrements` (combineCellDeltas),
`combineDataIncrements` (combinePointerDeltas), `markKnownZero`,
`combineSets`, `simplifyZeroingLoop`, `combineSetAndIncrements`. -/
theorem applyAllPasses_fixed_pipeline :
    ∀ p : List BFInstruction,
      applyAllPasses p =
        combineSetAndIncrements
          (simplifyZeroingLoop
            (combineSets
              (markKnownZero
                (combineDataIncrements
                  (combineIncrements p))))) :=
  fun _ => rfl

/-! ## Parser theorems -/

theorem consParsed_ok {inst : BFInstruction}
    {x : Except ParseError (List BFInstruction)} {r : List BFInstruction} :
    consParsed inst x = .ok r ↔ ∃ t, x = .ok t ∧ r = inst :: t := by
  cases x with
  | ok t => simp [consParsed, eq_comm]
  | error e => simp [consParsed]

theorem parseFrom_no_set : ∀ chars i stop r,
    parseFrom chars i stop = .ok r → progNoSet r = true := by
  intro chars i stop
  induction chars, i, stop using parseFrom.induct with
  | case1 i stop =>
    intro r hr
    simp [parseFrom] at hr
    subst hr
    rfl
  | case2 c rest i stop h =>
    intro r hr
    simp [parseFrom, h] at hr
    subst hr
    rfl
  | case3 rest i stop h ih =>
    intro r hr
    simp [parseFrom, h] at hr
    obtain ⟨t, hx, rfl⟩ := consParsed_ok.mp hr
    simp [progNoSet, instrNoSet, ih t hx]
  | case4 rest i stop h hc ih =>
    intro r hr
    simp [parseFrom, h] at hr
    obtain ⟨t, hx, rfl⟩ := consParsed_ok.mp hr
    simp [progNoSet, instrNoSet, ih t hx]
  | case5 rest i stop h hc1 hc2 ih =>
    intro r hr
    simp [parseFrom, h] at hr
    obtain ⟨t, hx, rfl⟩ := consParsed_ok.mp hr
    simp [progNoSet, instrNoSet, ih t hx]
  | case6 rest i stop h hc1 hc2 hc3 ih =>
    intro r hr
    simp [parseFrom, h] at hr
    obtain ⟨t, hx, rfl⟩ := consParsed_ok.mp hr
    simp [progNoSet, instrNoSet, ih t hx]
  | case7 rest i stop h hc1 hc2 hc3 hc4 ih =>
    intro r hr
    simp [parseFrom, h] at hr
    obtain ⟨t, hx, rfl⟩ := consParsed_ok.mp hr
    simp [progNoSet, instrNoSet, ih t hx]
  | case8 rest i stop h hc1 hc2 hc3 hc4 hc5 ih =>
    intro r hr
    simp [parseFrom, h] at hr
    obtain ⟨t, hx, rfl⟩ := consParsed_ok.mp hr
    simp [progNoSet, instrNoSet, ih t hx]
  | case9 rest i stop h hc1 hc2 hc3 hc4 hc5 hc6 hfind =>
    intro r hr
    simp [parseFrom, h, hfind] at hr
  | case10 rest i stop h m e herr hc1 hc2 hc3 hc4 hc5 hc6 hfind ih =>
    intro r hr
    simp [parseFrom, h, hfind, herr] at hr
  | case11 rest i stop h m body hbody hc1 hc2 hc3 hc4 hc5 hc6 hfind ih2 ih1 =>
    intro r hr
    simp [parseFrom, h, hfind, hbody] at hr
    obtain ⟨t, hx, rfl⟩ := consParsed_ok.mp hr
    simp [progNoSet, instrNoSet, ih2 body hbody, ih1 t hx]
  | case12 rest i stop h hc1 hc2 hc3 hc4 hc5 hc6 hc7 =>
    intro r hr
    simp [parseFrom, h] at hr
  | case13 c rest i stop h hc1 hc2 hc3 hc4 hc5 hc6 hc7 hc8 ih =>
    intro r hr
    simp only [parseFrom] at hr
    rw [if_neg h, if_neg hc1, if_neg hc2, if_neg hc3, if_neg hc4, if_neg hc5,
      if_neg hc6, if_neg hc7, if_neg hc8] at hr
    exact ih r hr

/-- C7: the parser maps each command character to exactly one IR node
in source order — `+` to `BFIncrement 1`, `-` to `BFIncrement (-1)`,
`>` to `BFDataIncrement 1`, `<` to `BFDataIncrement (-1)`, `,` to
`BFRead`, `.` to `BFWrite`, a bracket pair to a `BFLoop` wrapping the
recursively parsed text strictly between the brackets — ignores every
other character, performs no merging (`"+++"` gives three separate
increments), and never produces a `BFSet`. -/
theorem parser_maps_each_marker :
    parseSource ("+++".toList) = .ok [.increment 1, .increment 1, .increment 1]
    ∧ (∀ src p, parseSource src = .ok p → progNoSet p = true)
    ∧ (∀ rest i stop, i < stop →
        parseFrom ('+' :: rest) i stop =
          consParsed (.increment 1) (parseFrom rest (i + 1) stop))
    ∧ (∀ rest i stop, i < stop →
        parseFrom ('-' :: rest) i stop =
          consParsed (.increment (-1)) (parseFrom rest (i + 1) stop))
    ∧ (∀ rest i stop, i < stop →
        parseFrom ('>' :: rest) i stop =
          consParsed (.dataIncrement 1) (parseFrom rest (i + 1) stop))
    ∧ (∀ rest i stop, i < stop →
        parseFrom ('<' :: rest) i stop =
          consParsed (.dataIncrement (-1)) (parseFrom rest (i + 1) stop))
    ∧ (∀ rest i stop, i < stop →
        parseFrom (',' :: rest) i stop =
          consParsed .read (parseFrom rest (i + 1) stop))
    ∧ (∀ rest i stop, i < stop →
        parseFrom ('.' :: rest) i stop =
          consParsed .write (parseFrom rest (i + 1) stop))
    ∧ (∀ rest i stop m body, i < stop →
        findMatchingCloseFrom ('[' :: rest) i 0 = some m →
        parseFrom rest (i + 1) m = .ok body →
        parseFrom ('[' :: rest) i stop =
          consParsed (.loop body) (parseFrom (rest.drop (m - i)) (m + 1) stop))
    ∧ (∀ c rest i stop, i < stop →
        c ∉ (['+', '-', '>', '<', ',', '.', '[', ']'] : List Char) →
        parseFrom (c :: rest) i stop = parseFrom rest (i + 1) stop) := by
  refine ⟨?_, ?_, ?_, ?_, ?_, ?_, ?_, ?_, ?_, ?_⟩
  · simp [parseSource, parseFrom, consParsed]
  · intro src p h
    exact parseFrom_no_set src 0 src.length p h
  · intro rest i stop h
    simp [parseFrom, Nat.not_le.mpr h]
  · intro rest i stop h
    simp [parseFrom, Nat.not_le.mpr h]
  · intro rest i stop h
    simp [parseFrom, Nat.not_le.mpr h]
  · intro rest i stop h
    simp [parseFrom, Nat.not_le.mpr h]
  · intro rest i stop h
    simp [parseFrom, Nat.not_le.mpr h]
  · intro rest i stop h
    simp [parseFrom, Nat.not_le.mpr h]
  · intro rest i stop m body h hfind hbody
    simp [parseFrom, Nat.not_le.mpr h, hfind, hbody]
  · intro c rest i stop h hc
    simp only [List.mem_cons, List.mem_singleton] at hc
    push_neg at hc
    obtain ⟨h1, h2, h3, h4, h5, h6, h7, h8⟩ := hc
    simp only [parseFrom]
    rw [if_neg (Nat.not_le.mpr h), if_neg h1, if_neg h2, if_neg h3, if_neg h4,
      if_neg h5, if_neg h6, if_neg h7, if_neg h8.1]

/-- Witness for C7 at concrete inputs: the `+` and comment clauses
applied at position 0 of a two-character text, and the no-`BFSet`
clause applied to the parse of `"+"`. -/
theorem parser_maps_each_marker_witness :
    parseFrom ('+' :: ['x']) 0 2 =
      consParsed (.increment 1) (parseFrom ['x'] 1 2)
    ∧ parseFrom ('x' :: []) 1 2 = parseFrom [] 2 2
    ∧ progNoSet [.increment 1] = true := by
  have h := parser_maps_each_marker
  refine ⟨h.2.2.1 ['x'] 0 2 (by decide), ?_, ?_⟩
  · exact h.2.2.2.2.2.2.2.2.2 'x' [] 1 2 (by decide) (by decide)
  · exact h.2.1 ("+".toList) [.increment 1] (by simp [parseSource, parseFrom, consParsed])

/-! ## Error reporting of the parser -/

/-- C8: parsing yields either a program or a `MalformedProgram` error
and nothing else (no partial program): an unmatched `[` whose close is
not found fails with `unmatchedOpen` at the position of the `[`, and a
`]` reached directly by the scan fails with `unmatchedClose` at its
position; in particular `"[+"` fails with `unmatchedOpen 0` and `"+]"`
fails with `unmatchedClose 1`. -/
theorem parser_error_reporting :
    parseSource ("[+".toList) = .error (.unmatchedOpen 0)
    ∧ parseSource ("+]".toList) = .error (.unmatchedClose 1)
    ∧ (∀ src, (∃ p, parseSource src = .ok p) ∨
        (∃ e, parseSource src = .error e))
    ∧ (∀ rest i stop, i < stop →
        findMatchingCloseFrom ('[' :: rest) i 0 = none →
        parseFrom ('[' :: rest) i stop = .error (.unmatchedOpen i))
    ∧ (∀ rest i stop, i < stop →
        parseFrom (']' :: rest) i stop = .error (.unmatchedClose i)) := by
  refine ⟨?_, ?_, ?_, ?_, ?_⟩
  · simp [parseSource, parseFrom, findMatchingCloseFrom, bracketStep]
  · simp [parseSource, parseFrom, consParsed]
  · intro src
    cases h : parseSource src with
    | ok p => exact Or.inl ⟨p, rfl⟩
    | error e => exact Or.inr ⟨e, rfl⟩
  · intro rest i stop h hfind
    simp [parseFrom, Nat.not_le.mpr h, hfind]
  · intro rest i stop h
    simp [parseFrom, Nat.not_le.mpr h]

/-- Witness for C8 at concrete inputs: an unmatched `[` at position 2
and an unmatched `]` at position 5 of longer texts. -/
theorem parser_error_reporting_witness :
    parseFrom ('[' :: ['+']) 2 9 = .error (.unmatchedOpen 2)
    ∧ parseFrom (']' :: ['+']) 5 9 = .error (.unmatchedClose 5) := by
  have h := parser_error_reporting
  exact ⟨h.2.2.2.1 ['+'] 2 9 (by decide) (by decide),
    h.2.2.2.2 ['+'] 5 9 (by decide)⟩

/-! ## The pipeline on small programs -/

/-- C9: the full pipeline on the parse of `"+"` gives exactly
`[BFSet 1]`; `markKnownZero` prepends `BFSet 0` as the first top-level
instruction of any program, and `combineSetAndIncrements` merges an
adjacent `BFSet v` followed by `BFIncrement d` into `BFSet (v + d)`. -/
theorem pipeline_on_plus :
    (parseSource ("+".toList)).map applyAllPasses = .ok [.set 1]
    ∧ (∀ l : List BFInstruction, markKnownZero l = .set 0 :: l)
    ∧ (∀ (v d : Int) (l : List BFInstruction),
        combineSetAndIncrements (.set v :: .increment d :: l) =
          combineSetAndIncrements (.set (v + d) :: l)) := by
  refine ⟨?_, fun _ => rfl, fun _ _ _ => rfl⟩
  have hp : parseSource ("+".toList) = .ok [.increment 1] := by
    simp [parseSource, parseFrom, consParsed]
  rw [hp]
  rfl

/-- C10: the full pipeline on the parse of `"[-]"` gives the
two-instruction program `[BFSet 0, BFSet 0]` — the `BFSet 0` prepended
by `markKnownZero` and the `BFSet 0` produced by `simplifyZeroingLoop`
end up adjacent (`combineSets` has already run when the second one
appears) and `combineSetAndIncrements` does not merge two adjacent
`BFSet`. -/
theorem pipeline_on_zeroing_loop :
    (parseSource ("[-]".toList)).map applyAllPasses = .ok [.set 0, .set 0]
    ∧ simplifyZeroingLoop (combineSets (markKnownZero
        [.loop [.increment (-1)]])) = [.set 0, .set 0]
    ∧ combineSetAndIncrements [.set 0, .set 0] = [.set 0, .set 0] := by
  refine ⟨?_, rfl, rfl⟩
  have hp : parseSource ("[-]".toList) = .ok [.loop [.increment (-1)]] := by
    simp [parseSource, parseFrom, findMatchingCloseFrom, bracketStep, consParsed]
  rw [hp]
  rfl

/-! ## The self-zeroing-loop rewrite -/

theorem progEq_zeroing_iff :
    ∀ body : List BFInstruction,
      progEq body [.increment (-1)] = isZeroingBody body := by
  intro body
  match body with
  | [] => rfl
  | [.increment a] => simp [progEq, instrEq, isZeroingBody]
  | [.dataIncrement a] => rfl
  | [.read] => rfl
  | [.write] => rfl
  | [.set a] => rfl
  | [.loop b] => rfl
  | x :: y :: rest => simp [progEq, isZeroingBody]

/-- C5: `simplifyZeroingLoop` replaces each top-level loop whose body
is structurally equal to `[BFIncrement (-1)]` by `BFSet 0` and returns
every other instruction unchanged in order; the full pipeline applied
to the parse of `"[-]"` rewrites that loop to `BFSet 0`. -/
theorem simplifyZeroingLoop_replaces_matching_loops :
    (∀ l : List BFInstruction,
      simplifyZeroingLoop l = l.map fun cur =>
        match cur with
        | .loop body => if isZeroingBody body then .set 0 else .loop body
        | other => other)
    ∧ (∀ body, isZeroingBody body = true ↔ body = [.increment (-1)])
    ∧ (parseSource ("[-]".toList)).map applyAllPasses =
        .ok [.set 0, .set 0] := by
  refine ⟨?_, ?_, ?_⟩
  · intro l
    unfold simplifyZeroingLoop
    congr 1
    funext cur
    cases cur with
    | loop body =>
      show (if progEq body [.increment (-1)] = true then BFInstruction.set 0
          else .loop body) =
        (if isZeroingBody body = true then BFInstruction.set 0 else .loop body)
      rw [progEq_zeroing_iff]
    | _ => rfl
  · intro body
    rw [← progEq_zeroing_iff, progEq_iff_eq]
  · have hp : parseSource ("[-]".toList) = .ok [.loop [.increment (-1)]] := by
      simp [parseSource, parseFrom, findMatchingCloseFrom, bracketStep, consParsed]
    rw [hp]
    rfl

/-- Witness for C5 at a concrete input: the characterisation applied to
a two-loop program, rewriting the matching loop and keeping the
other. -/
theorem simplifyZeroingLoop_replaces_matching_loops_witness :
    simplifyZeroingLoop [.loop [.increment (-1)], .loop [], .read] =
      [.set 0, .loop [], .read]
    ∧ isZeroingBody [.increment (-1)] = true := by
  have h := simplifyZeroingLoop_replaces_matching_loops
  refine ⟨?_, (h.2.1 [.increment (-1)]).mpr rfl⟩
  rw [h.1 [.loop [.increment (-1)], .loop [], .read]]
  rfl

/-! ## Merging adjacent CellDeltas -/

theorem spec_cons_not {i : BFInstruction} (h : isCellDelta i = false)
    (rest : List BFInstruction) :
    specCombineCellDeltas (i :: rest) = i :: specCombineCellDeltas rest := by
  rw [specCombineCellDeltas, if_neg (by simp [h])]

theorem spec_cons_incr (a : Int) (rest : List BFInstruction) :
    specCombineCellDeltas (.increment a :: rest) =
      (if a + ((rest.takeWhile isCellDelta).map cellDeltaAmount).sum = 0
        then []
        else [.increment
          (a + ((rest.takeWhile isCellDelta).map cellDeltaAmount).sum)]) ++
        specCombineCellDeltas (rest.dropWhile isCellDelta) := by
  rw [specCombineCellDeltas, if_pos (by simp [isCellDelta])]
  rfl

theorem spec_merge (a b : Int) (rest : List BFInstruction) :
    specCombineCellDeltas (.increment a :: .increment b :: rest) =
      specCombineCellDeltas (.increment (b + a) :: rest) := by
  rw [spec_cons_incr, spec_cons_incr]
  rw [List.takeWhile_cons_of_pos (by simp [isCellDelta]),
    List.dropWhile_cons_of_pos (by simp [isCellDelta])]
  simp only [List.map_cons, List.sum_cons, cellDeltaAmount]
  have h : a + (b + ((rest.takeWhile isCellDelta).map cellDeltaAmount).sum) =
      b + a + ((rest.takeWhile isCellDelta).map cellDeltaAmount).sum := by ring
  rw [h]

theorem spec_zero_head (rest : List BFInstruction) :
    specCombineCellDeltas (.increment 0 :: rest) =
      specCombineCellDeltas rest := by
  rw [spec_cons_incr]
  cases rest with
  | nil => simp [specCombineCellDeltas]
  | cons d r2 =>
    cases hd : isCellDelta d with
    | true =>
      obtain ⟨e, rfl⟩ : ∃ e, d = .increment e := by
        cases d <;> simp_all [isCellDelta]
      rw [List.takeWhile_cons_of_pos (by simp [isCellDelta]),
        List.dropWhile_cons_of_pos (by simp [isCellDelta])]
      rw [spec_cons_incr]
      simp [cellDeltaAmount]
    | false =>
      rw [List.takeWhile_cons_of_neg (by simp [hd]),
        List.dropWhile_cons_of_neg (by simp [hd])]
      simp

theorem combineIncrementsAux_spec : ∀ pending l,
    (∀ a : Int, pending = some (.increment a) → a ≠ 0) →
    (∀ a : Int, .increment a ∈ l → a ≠ 0) →
    combineIncrementsAux pending l = pendingSpec pending l := by
  intro pending l
  induction pending, l using combineIncrementsAux.induct with
  | case1 =>
    intro _ _
    simp [combineIncrementsAux, pendingSpec, specCombineCellDeltas]
  | case2 p =>
    intro hp _
    cases hpc : isCellDelta p with
    | true =>
      obtain ⟨a, rfl⟩ : ∃ a, p = .increment a := by
        cases p <;> simp_all [isCellDelta]
      have ha : a ≠ 0 := hp a rfl
      simp [combineIncrementsAux, pendingSpec, spec_cons_incr,
        specCombineCellDeltas, ha]
    | false =>
      simp [combineIncrementsAux, pendingSpec, spec_cons_not hpc,
        specCombineCellDeltas]
  | case3 c rest ih =>
    intro _ hl
    rw [show combineIncrementsAux none (c :: rest) =
      combineIncrementsAux (some c) rest from rfl]
    rw [ih (fun a hc => hl a (by
        rw [← Option.some.inj hc]; exact List.mem_cons_self c rest))
      (fun a ha => hl a (List.mem_cons_of_mem c ha))]
    rfl
  | case4 rest a b hsum ih =>
    intro hp hl
    rw [show combineIncrementsAux (some (.increment a))
        (.increment b :: rest) = combineIncrementsAux none rest from by
      simp [combineIncrementsAux, hsum]]
    rw [ih (by simp) (fun x hx => hl x (List.mem_cons_of_mem _ hx))]
    show specCombineCellDeltas rest =
      specCombineCellDeltas (.increment a :: .increment b :: rest)
    rw [spec_merge, hsum, spec_zero_head]
  | case5 rest a b hsum ih =>
    intro hp hl
    rw [show combineIncrementsAux (some (.increment a))
        (.increment b :: rest) =
        combineIncrementsAux (some (.increment (b + a))) rest from by
      simp [combineIncrementsAux, hsum]]
    rw [ih (by simpa using hsum)
      (fun x hx => hl x (List.mem_cons_of_mem _ hx))]
    show specCombineCellDeltas (.increment (b + a) :: rest) =
      specCombineCellDeltas (.increment a :: .increment b :: rest)
    rw [spec_merge]
  | case6 rest lst cur hboth ih =>
    intro hp hl
    have hcur : ∀ a : Int, cur = .increment a → a ≠ 0 := fun a hc =>
      hl a (by rw [← hc]; exact List.mem_cons_self _ _)
    have hrest : ∀ a : Int, .increment a ∈ rest → a ≠ 0 :=
      fun a ha => hl a (List.mem_cons_of_mem _ ha)
    rw [show combineIncrementsAux (some lst) (cur :: rest) =
      lst :: combineIncrementsAux (some cur) rest from by
        cases lst <;> cases cur <;>
          first
            | rfl
            | exact (hboth _ _ rfl rfl).elim]
    rw [ih (fun a hc => hcur a (Option.some.inj hc)) hrest]
    show lst :: specCombineCellDeltas (cur :: rest) =
      specCombineCellDeltas (lst :: cur :: rest)
    by_cases hld : isCellDelta lst = true
    · obtain ⟨a, rfl⟩ : ∃ a, lst = .increment a := by
        cases lst <;> simp_all [isCellDelta]
      have ha : a ≠ 0 := hp a rfl
      have hcurnot : isCellDelta cur = false := by
        cases cur <;>
          first
            | rfl
            | exact (hboth _ _ rfl rfl).elim
      rw [spec_cons_incr]
      rw [List.takeWhile_cons_of_neg (by simp [hcurnot]),
        List.dropWhile_cons_of_neg (by simp [hcurnot])]
      simp [ha]
    · have hlst : isCellDelta lst = false := by simpa using hld
      rw [spec_cons_not hlst]

/-- C3 (amended): for every program in which every CellDelta amount is
nonzero — as holds for all parser output — `combineIncrements` replaces
each maximal run of adjacent top-level CellDeltas by a single CellDelta
holding the run's sum, emits nothing for a run summing to exactly 0,
never merges instructions of different variants, and leaves all other
instructions unchanged in their original order (that is, it agrees
with the run-summing description `specCombineCellDeltas`); in
particular `[CellDelta 1, CellDelta (-1), PointerDelta 1]` becomes
`[PointerDelta 1]`.  (Without the nonzero proviso the claim fails: see
the counterexample at `[CellDelta 0]`.) -/
theorem combineIncrements_merges_runs :
    (∀ l : List BFInstruction,
      (∀ a : Int, BFInstruction.increment a ∈ l → a ≠ 0) →
      combineIncrements l = specCombineCellDeltas l)
    ∧ combineIncrements [.increment 1, .increment (-1), .dataIncrement 1] =
        [.dataIncrement 1]
    ∧ combineIncrements [.increment 1, .increment 2] = [.increment 3]
    ∧ combineIncrements [.increment 1, .dataIncrement 1] =
        [.increment 1, .dataIncrement 1] := by
  refine ⟨?_, rfl, rfl, rfl⟩
  intro l hl
  exact combineIncrementsAux_spec none l (by simp) hl

/-- Witness for C3 at a concrete input: the run `[CellDelta 2,
CellDelta 3]` followed by `BFRead` collapses to `[CellDelta 5,
BFRead]`. -/
theorem combineIncrements_merges_runs_witness :
    combineIncrements [.increment 2, .increment 3, .read] =
      specCombineCellDeltas [.increment 2, .increment 3, .read]
    ∧ combineIncrements [.increment 2, .increment 3, .read] =
      [.increment 5, .read] := by
  have h := combineIncrements_merges_runs
  refine ⟨h.1 _ ?_, rfl⟩
  intro a ha
  simp only [List.mem_cons, List.not_mem_nil, or_false] at ha
  rcases ha with ha | ha | ha
  · injection ha with h2; omega
  · injection ha with h2; omega
  · exact absurd ha (by simp)

/-- C3 counterexample: `[CellDelta 0]` is a maximal run of CellDeltas
whose sum is exactly 0, so the claim says the pass emits nothing for
it, but the code emits `CellDelta 0` unchanged (the pass only drops a
run when a merge step reaches a zero sum). -/
theorem combineIncrements_zero_run_counterexample :
    combineIncrements [.increment 0] = [.increment 0]
    ∧ specCombineCellDeltas [.increment 0] = []
    ∧ combineIncrements [.increment 0] ≠
        specCombineCellDeltas [.increment 0] := by
  have h2 : specCombineCellDeltas [.increment 0] = [] := by
    rw [spec_cons_incr]
    simp [specCombineCellDeltas]
  refine ⟨rfl, h2, ?_⟩
  rw [h2]
  simp [combineIncrements, combineIncrementsAux]

/-! ## Every pass leaves loop bodies untouched -/

theorem topLoopBodies_cons (i : BFInstruction) (l : List BFInstruction) :
    topLoopBodies (i :: l) = topLoopBodies [i] ++ topLoopBodies l := by
  cases i <;> simp [topLoopBodies, List.filterMap_cons]

theorem combineIncrementsAux_bodies : ∀ pending l,
    topLoopBodies (combineIncrementsAux pending l) =
      pendingLoopBodies pending ++ topLoopBodies l := by
  intro pending l
  induction pending, l using combineIncrementsAux.induct with
  | case1 => simp [combineIncrementsAux, pendingLoopBodies, topLoopBodies]
  | case2 p =>
    simp [combineIncrementsAux, pendingLoopBodies, topLoopBodies_cons,
      topLoopBodies]
  | case3 c rest ih =>
    rw [show combineIncrementsAux none (c :: rest) =
      combineIncrementsAux (some c) rest from rfl, ih]
    simp [pendingLoopBodies, topLoopBodies_cons c rest]
  | case4 rest a b hsum ih =>
    rw [show combineIncrementsAux (some (.increment a))
        (.increment b :: rest) = combineIncrementsAux none rest from by
      simp [combineIncrementsAux, hsum], ih]
    simp [pendingLoopBodies, topLoopBodies_cons (BFInstruction.increment b),
      topLoopBodies]
  | case5 rest a b hsum ih =>
    rw [show combineIncrementsAux (some (.increment a))
        (.increment b :: rest) =
        combineIncrementsAux (some (.increment (b + a))) rest from by
      simp [combineIncrementsAux, hsum], ih]
    simp [pendingLoopBodies, topLoopBodies_cons (BFInstruction.increment b),
      topLoopBodies]
  | case6 rest lst cur hboth ih =>
    rw [show combineIncrementsAux (some lst) (cur :: rest) =
      lst :: combineIncrementsAux (some cur) rest from by
        cases lst <;> cases cur <;>
          first
            | rfl
            | exact (hboth _ _ rfl rfl).elim]
    rw [topLoopBodies_cons lst, ih, topLoopBodies_cons cur rest]
    simp [pendingLoopBodies]

theorem combineDataIncrementsAux_bodies : ∀ pending l,
    topLoopBodies (combineDataIncrementsAux pending l) =
      pendingLoopBodies pending ++ topLoopBodies l := by
  intro pending l
  induction pending, l using combineDataIncrementsAux.induct with
  | case1 => simp [combineDataIncrementsAux, pendingLoopBodies, topLoopBodies]
  | case2 p =>
    simp [combineDataIncrementsAux, pendingLoopBodies, topLoopBodies_cons,
      topLoopBodies]
  | case3 c rest ih =>
    rw [show combineDataIncrementsAux none (c :: rest) =
      combineDataIncrementsAux (some c) rest from rfl, ih]
    simp [pendingLoopBodies, topLoopBodies_cons c rest]
  | case4 rest a b hsum ih =>
    rw [show combineDataIncrementsAux (some (.dataIncrement a))
        (.dataIncrement b :: rest) =
        combineDataIncrementsAux none rest from by
      simp [combineDataIncrementsAux, hsum], ih]
    simp [pendingLoopBodies,
      topLoopBodies_cons (BFInstruction.dataIncrement b), topLoopBodies]
  | case5 rest a b hsum ih =>
    rw [show combineDataIncrementsAux (some (.dataIncrement a))
        (.dataIncrement b :: rest) =
        combineDataIncrementsAux (some (.dataIncrement (b + a))) rest from by
      simp [combineDataIncrementsAux, hsum], ih]
    simp [pendingLoopBodies,
      topLoopBodies_cons (BFInstruction.dataIncrement b), topLoopBodies]
  | case6 rest lst cur hboth ih =>
    rw [show combineDataIncrementsAux (some lst) (cur :: rest) =
      lst :: combineDataIncrementsAux (some cur) rest from by
        cases lst <;> cases cur <;>
          first
            | rfl
            | exact (hboth _ _ rfl rfl).elim]
    rw [topLoopBodies_cons lst, ih, topLoopBodies_cons cur rest]
    simp [pendingLoopBodies]

theorem combineSetsAux_bodies : ∀ pending l,
    topLoopBodies (combineSetsAux pending l) =
      pendingLoopBodies pending ++ topLoopBodies l := by
  intro pending l
  induction pending, l using combineSetsAux.induct with
  | case1 => simp [combineSetsAux, pendingLoopBodies, topLoopBodies]
  | case2 p =>
    simp [combineSetsAux, pendingLoopBodies, topLoopBodies_cons,
      topLoopBodies]
  | case3 c rest ih =>
    rw [show combineSetsAux none (c :: rest) =
      combineSetsAux (some c) rest from rfl, ih]
    simp [pendingLoopBodies, topLoopBodies_cons c rest]
  | case4 rest a b ih =>
    rw [show combineSetsAux (some (.set a)) (.set b :: rest) =
      combineSetsAux (some (.set b)) rest from rfl, ih]
    simp [pendingLoopBodies, topLoopBodies_cons (BFInstruction.set b),
      topLoopBodies]
  | case5 rest lst cur hboth ih =>
    rw [show combineSetsAux (some lst) (cur :: rest) =
      lst :: combineSetsAux (some cur) rest from by
        cases lst <;> cases cur <;>
          first
            | rfl
            | exact (hboth _ _ rfl rfl).elim]
    rw [topLoopBodies_cons lst, ih, topLoopBodies_cons cur rest]
    simp [pendingLoopBodies]

theorem combineSetAndIncrementsAux_bodies : ∀ pending l,
    topLoopBodies (combineSetAndIncrementsAux pending l) =
      pendingLoopBodies pending ++ topLoopBodies l := by
  intro pending l
  induction pending, l using combineSetAndIncrementsAux.induct with
  | case1 =>
    simp [combineSetAndIncrementsAux, pendingLoopBodies, topLoopBodies]
  | case2 p =>
    simp [combineSetAndIncrementsAux, pendingLoopBodies, topLoopBodies_cons,
      topLoopBodies]
  | case3 c rest ih =>
    rw [show combineSetAndIncrementsAux none (c :: rest) =
      combineSetAndIncrementsAux (some c) rest from rfl, ih]
    simp [pendingLoopBodies, topLoopBodies_cons c rest]
  | case4 rest a b ih =>
    rw [show combineSetAndIncrementsAux (some (.set a))
        (.increment b :: rest) =
        combineSetAndIncrementsAux (some (.set (a + b))) rest from rfl, ih]
    simp [pendingLoopBodies, topLoopBodies_cons (BFInstruction.increment b),
      topLoopBodies]
  | case5 rest lst cur hboth ih =>
    rw [show combineSetAndIncrementsAux (some lst) (cur :: rest) =
      lst :: combineSetAndIncrementsAux (some cur) rest from by
        cases lst <;> cases cur <;>
          first
            | rfl
            | exact (hboth _ _ rfl rfl).elim]
    rw [topLoopBodies_cons lst, ih, topLoopBodies_cons cur rest]
    simp [pendingLoopBodies]

theorem simplifyZeroingLoop_bodies : ∀ l : List BFInstruction,
    topLoopBodies (simplifyZeroingLoop l) =
      (topLoopBodies l).filter
        (fun b => !(progEq b [.increment (-1)])) := by
  intro l
  induction l with
  | nil => rfl
  | cons i rest ih =>
    cases i with
    | loop body =>
      rw [show simplifyZeroingLoop (BFInstruction.loop body :: rest) =
        (if progEq body [.increment (-1)] then BFInstruction.set 0
          else .loop body) :: simplifyZeroingLoop rest from by
        simp [simplifyZeroingLoop]]
      by_cases hb : progEq body [.increment (-1)] = true
      · rw [if_pos hb]
        rw [topLoopBodies_cons, topLoopBodies_cons, ih]
        simp [topLoopBodies, hb]
      · rw [if_neg hb]
        rw [topLoopBodies_cons, topLoopBodies_cons, ih]
        simp only [Bool.not_eq_true] at hb
        simp [topLoopBodies, hb]
    | increment a =>
      rw [show simplifyZeroingLoop (BFInstruction.increment a :: rest) =
        BFInstruction.increment a :: simplifyZeroingLoop rest from by
        simp [simplifyZeroingLoop]]
      rw [topLoopBodies_cons, ih]
      simp [topLoopBodies, List.filterMap_cons]
    | dataIncrement a =>
      rw [show simplifyZeroingLoop (BFInstruction.dataIncrement a :: rest) =
        BFInstruction.dataIncrement a :: simplifyZeroingLoop rest from by
        simp [simplifyZeroingLoop]]
      rw [topLoopBodies_cons, ih]
      simp [topLoopBodies, List.filterMap_cons]
    | read =>
      rw [show simplifyZeroingLoop (BFInstruction.read :: rest) =
        BFInstruction.read :: simplifyZeroingLoop rest from by
        simp [simplifyZeroingLoop]]
      rw [topLoopBodies_cons, ih]
      simp [topLoopBodies, List.filterMap_cons]
    | write =>
      rw [show simplifyZeroingLoop (BFInstruction.write :: rest) =
        BFInstruction.write :: simplifyZeroingLoop rest from by
        simp [simplifyZeroingLoop]]
      rw [topLoopBodies_cons, ih]
      simp [topLoopBodies, List.filterMap_cons]
    | set a =>
      rw [show simplifyZeroingLoop (BFInstruction.set a :: rest) =
        BFInstruction.set a :: simplifyZeroingLoop rest from by
        simp [simplifyZeroingLoop]]
      rw [topLoopBodies_cons, ih]
      simp [topLoopBodies, List.filterMap_cons]

/-- C6: every pass works on the top level only — the list of loop
bodies in each pass's output is exactly the input's list of top-level
loop bodies (`simplifyZeroingLoop` alone may remove a whole loop whose
body is the zeroing body, but it never edits the interior of any
body). -/
theorem passes_leave_loop_bodies_unchanged :
    (∀ l : List BFInstruction,
      topLoopBodies (combineIncrements l) = topLoopBodies l)
    ∧ (∀ l : List BFInstruction,
        topLoopBodies (combineDataIncrements l) = topLoopBodies l)
    ∧ (∀ l : List BFInstruction,
        topLoopBodies (markKnownZero l) = topLoopBodies l)
    ∧ (∀ l : List BFInstruction,
        topLoopBodies (combineSets l) = topLoopBodies l)
    ∧ (∀ l : List BFInstruction,
        topLoopBodies (combineSetAndIncrements l) = topLoopBodies l)
    ∧ (∀ l : List BFInstruction,
        topLoopBodies (simplifyZeroingLoop l) =
          (topLoopBodies l).filter
            (fun b => !(progEq b [.increment (-1)]))) := by
  refine ⟨?_, ?_, ?_, ?_, ?_, simplifyZeroingLoop_bodies⟩
  · intro l
    simpa [pendingLoopBodies] using combineIncrementsAux_bodies none l
  · intro l
    simpa [pendingLoopBodies] using combineDataIncrementsAux_bodies none l
  · intro l
    rw [show markKnownZero l = BFInstruction.set 0 :: l from rfl,
      topLoopBodies_cons]
    rfl
  · intro l
    simpa [pendingLoopBodies] using combineSetsAux_bodies none l
  · intro l
    simpa [pendingLoopBodies] using combineSetAndIncrementsAux_bodies none l

/-! ## Lowering theorems -/

theorem newBlock_snd (s : CodegenState) : (newBlock s).2 = s.blocks.length := rfl

theorem length_setBlockAt : ∀ (l : List Block) (i : Nat) (b : Block),
    (setBlockAt l i b).length = l.length
  | [], _, _ => rfl
  | _ :: rest, 0, b => rfl
  | x :: rest, i + 1, b => by
    simp [setBlockAt, length_setBlockAt rest i b]

theorem getD_setBlockAt_self : ∀ (l : List Block) (i : Nat) (b d : Block),
    i < l.length → (setBlockAt l i b).getD i d = b
  | [], i, b, d, h => absurd h (by simp)
  | x :: rest, 0, b, d, h => rfl
  | x :: rest, i + 1, b, d, h => by
    simp only [setBlockAt, List.getD_cons_succ]
    exact getD_setBlockAt_self rest i b d (by simpa using h)

theorem getD_setBlockAt_ne : ∀ (l : List Block) (i j : Nat) (b d : Block),
    j ≠ i → (setBlockAt l i b).getD j d = l.getD j d
  | [], _, _, _, _, _ => rfl
  | x :: rest, 0, 0, b, d, h => absurd rfl h
  | x :: rest, 0, j + 1, b, d, h => rfl
  | x :: rest, i + 1, 0, b, d, h => rfl
  | x :: rest, i + 1, j + 1, b, d, h => by
    simp only [setBlockAt, List.getD_cons_succ]
    exact getD_setBlockAt_ne rest i j b d (by omega)

theorem setBlockAt_of_le : ∀ (l : List Block) (i : Nat) (b : Block),
    l.length ≤ i → setBlockAt l i b = l
  | [], _, _, _ => rfl
  | x :: rest, i + 1, b, h => by
    simp only [setBlockAt]
    rw [setBlockAt_of_le rest i b (by simpa using h)]

theorem getD_append_left : ∀ (l r : List Block) (j : Nat) (d : Block),
    j < l.length → (l ++ r).getD j d = l.getD j d
  | x :: rest, r, 0, d, h => rfl
  | x :: rest, r, j + 1, d, h => by
    simp only [List.cons_append, List.getD_cons_succ]
    exact getD_append_left rest r j d (by simpa using h)

theorem getD_append_self : ∀ (l : List Block) (b d : Block),
    (l ++ [b]).getD l.length d = b
  | [], b, d => rfl
  | x :: rest, b, d => by
    simp only [List.cons_append, List.length_cons, List.getD_cons_succ]
    exact getD_append_self rest b d

theorem length_setTerm (s : CodegenState) (i : Nat) (t : Term) :
    (setTerm s i t).blocks.length = s.blocks.length :=
  length_setBlockAt _ _ _

theorem length_appendOps (s : CodegenState) (i : Nat) (ops : List Op) :
    (appendOps s i ops).blocks.length = s.blocks.length :=
  length_setBlockAt _ _ _

theorem length_newBlock (s : CodegenState) :
    ((newBlock s).1).blocks.length = s.blocks.length + 1 := by
  simp [newBlock]

theorem getBlock_setTerm_self (s : CodegenState) (i : Nat) (t : Term)
    (h : i < s.blocks.length) :
    getBlock (setTerm s i t) i = ⟨(getBlock s i).ops, some t⟩ :=
  getD_setBlockAt_self _ _ _ _ h

theorem getBlock_setTerm_ne (s : CodegenState) (i : Nat) (t : Term)
    (j : Nat) (h : j ≠ i) :
    getBlock (setTerm s i t) j = getBlock s j :=
  getD_setBlockAt_ne _ _ _ _ _ h

theorem getBlock_appendOps_self (s : CodegenState) (i : Nat) (ops : List Op)
    (h : i < s.blocks.length) :
    getBlock (appendOps s i ops) i =
      ⟨(getBlock s i).ops ++ ops, (getBlock s i).term⟩ :=
  getD_setBlockAt_self _ _ _ _ h

theorem getBlock_appendOps_ne (s : CodegenState) (i : Nat) (ops : List Op)
    (j : Nat) (h : j ≠ i) :
    getBlock (appendOps s i ops) j = getBlock s j :=
  getD_setBlockAt_ne _ _ _ _ _ h

theorem appendOps_of_le (s : CodegenState) (i : Nat) (ops : List Op)
    (h : s.blocks.length ≤ i) : appendOps s i ops = s := by
  cases s with
  | mk blocks => simp [appendOps, setBlockAt_of_le _ _ _ h]

theorem getBlock_newBlock_lt (s : CodegenState) (j : Nat)
    (h : j < s.blocks.length) : getBlock (newBlock s).1 j = getBlock s j :=
  getD_append_left _ _ _ _ h

theorem getBlock_newBlock_self (s : CodegenState) :
    getBlock (newBlock s).1 s.blocks.length = ⟨[], none⟩ :=
  getD_append_self _ _ _

theorem loopSetupState_length (s : CodegenState) (bb : Nat) :
    (loopSetupState s bb).blocks.length = s.blocks.length + 3 := by
  simp [loopSetupState, length_setTerm, length_appendOps, length_newBlock,
    newBlock, length_setBlockAt, setTerm, appendOps]


theorem compileInst_loop_eq (body : List BFInstruction) (s : CodegenState)
    (bb : Nat) :
    compileInst (.loop body) s bb =
      (setTerm (compileProg body (loopSetupState s bb)
          (s.blocks.length + 1)).1
        (compileProg body (loopSetupState s bb)
          (s.blocks.length + 1)).2
        (.br s.blocks.length),
       s.blocks.length + 2) := by
  have hb : (newBlock (setTerm (newBlock s).1 bb
      (.br (newBlock s).2))).2 = s.blocks.length + 1 := by
    rw [newBlock_snd, length_setTerm, length_newBlock]
  have ha : (newBlock (newBlock (setTerm (newBlock s).1 bb
      (.br (newBlock s).2))).1).2 = s.blocks.length + 2 := by
    rw [newBlock_snd, length_newBlock, length_setTerm, length_newBlock]
  have hraw : compileInst (.loop body) s bb =
      ((setTerm
          (compileProg body (loopSetupState s bb)
            (newBlock (setTerm (newBlock s).1 bb (.br (newBlock s).2))).2).1
          (compileProg body (loopSetupState s bb)
            (newBlock (setTerm (newBlock s).1 bb (.br (newBlock s).2))).2).2
          (.br (newBlock s).2)),
        (newBlock (newBlock (setTerm (newBlock s).1 bb
          (.br (newBlock s).2))).1).2) := rfl
  rw [hraw, hb, ha, newBlock_snd]

theorem getBlock_loopSetupState_old (s : CodegenState) (bb j : Nat)
    (hj : j < s.blocks.length) (hne : j ≠ bb) :
    getBlock (loopSetupState s bb) j = getBlock s j := by
  simp only [loopSetupState, newBlock_snd]
  rw [getBlock_setTerm_ne _ _ _ _ (Nat.ne_of_lt hj)]
  rw [getBlock_appendOps_ne _ _ _ _ (Nat.ne_of_lt hj)]
  rw [getBlock_newBlock_lt _ _ (by
    simp only [length_setTerm, length_newBlock]; omega)]
  rw [getBlock_newBlock_lt _ _ (by
    simp only [length_setTerm, length_newBlock]; omega)]
  rw [getBlock_setTerm_ne _ _ _ _ hne]
  rw [getBlock_newBlock_lt _ _ hj]

theorem getBlock_loopSetupState_bb (s : CodegenState) (bb : Nat)
    (hbb : bb < s.blocks.length) :
    getBlock (loopSetupState s bb) bb =
      ⟨(getBlock s bb).ops, some (.br s.blocks.length)⟩ := by
  simp only [loopSetupState, newBlock_snd]
  rw [getBlock_setTerm_ne _ _ _ _ (Nat.ne_of_lt hbb)]
  rw [getBlock_appendOps_ne _ _ _ _ (Nat.ne_of_lt hbb)]
  rw [getBlock_newBlock_lt _ _ (by
    simp only [length_setTerm, length_newBlock]; omega)]
  rw [getBlock_newBlock_lt _ _ (by
    simp only [length_setTerm, length_newBlock]; omega)]
  rw [getBlock_setTerm_self _ _ _ (by rw [length_newBlock]; omega)]
  rw [getBlock_newBlock_lt _ _ hbb]

theorem getBlock_loopSetupState_header (s : CodegenState) (bb : Nat)
    (hbb : bb < s.blocks.length) :
    getBlock (loopSetupState s bb) s.blocks.length =
      ⟨loopHeaderOps,
        some (.condBr (s.blocks.length + 2) (s.blocks.length + 1))⟩ := by
  simp only [loopSetupState, newBlock_snd]
  rw [getBlock_setTerm_self _ _ _ (by
    simp only [length_appendOps, length_setTerm, length_newBlock]; omega)]
  rw [getBlock_appendOps_self _ _ _ (by
    simp only [length_setTerm, length_newBlock]; omega)]
  rw [getBlock_newBlock_lt _ _ (by
    simp only [length_setTerm, length_newBlock]; omega)]
  rw [getBlock_newBlock_lt _ _ (by
    simp only [length_setTerm, length_newBlock]; omega)]
  rw [getBlock_setTerm_ne _ _ _ _ (by omega)]
  rw [getBlock_newBlock_self]
  have h1 : ((newBlock (setTerm (newBlock s).1 bb
      (.br s.blocks.length))).1).blocks.length = s.blocks.length + 2 := by
    rw [length_newBlock, length_setTerm, length_newBlock]
  have h2 : (setTerm (newBlock s).1 bb
      (.br s.blocks.length)).blocks.length = s.blocks.length + 1 := by
    rw [length_setTerm, length_newBlock]
  rw [h1, h2]
  simp

theorem getBlock_loopSetupState_after (s : CodegenState) (bb : Nat) :
    getBlock (loopSetupState s bb) (s.blocks.length + 2) = ⟨[], none⟩ := by
  simp only [loopSetupState, newBlock_snd]
  rw [getBlock_setTerm_ne _ _ _ _ (by omega)]
  rw [getBlock_appendOps_ne _ _ _ _ (by omega)]
  have h1 : s.blocks.length + 2 = ((newBlock (setTerm (newBlock s).1 bb
      (.br s.blocks.length))).1).blocks.length := by
    rw [length_newBlock, length_setTerm, length_newBlock]
  rw [h1, getBlock_newBlock_self]


theorem appendOps_frame (s : CodegenState) (c : Nat) (ops : List Op) :
    s.blocks.length ≤ (appendOps s c ops).blocks.length
    ∧ (c = c ∨ s.blocks.length ≤ c)
    ∧ (∀ j, j < s.blocks.length → j ≠ c →
        getBlock (appendOps s c ops) j = getBlock s j)
    ∧ (c < s.blocks.length → c < (appendOps s c ops).blocks.length) := by
  refine ⟨by rw [length_appendOps], Or.inl rfl, ?_, ?_⟩
  · intro j _ hne
    exact getBlock_appendOps_ne _ _ _ _ hne
  · intro h
    rw [length_appendOps]
    exact h

mutual

theorem compileInst_frame : ∀ (inst : BFInstruction) (s : CodegenState)
    (c : Nat),
    s.blocks.length ≤ ((compileInst inst s c).1).blocks.length
    ∧ ((compileInst inst s c).2 = c ∨
        s.blocks.length ≤ (compileInst inst s c).2)
    ∧ (∀ j, j < s.blocks.length → j ≠ c →
        getBlock ((compileInst inst s c).1) j = getBlock s j)
    ∧ (c < s.blocks.length →
        (compileInst inst s c).2 < ((compileInst inst s c).1).blocks.length)
  | .increment n, s, c => appendOps_frame s c (incrementOps n)
  | .dataIncrement n, s, c => appendOps_frame s c (dataIncrementOps n)
  | .read, s, c => appendOps_frame s c readOps
  | .write, s, c => appendOps_frame s c writeOps
  | .set v, s, c => appendOps_frame s c (setOps v)
  | .loop body, s, c => by
    have heq := compileInst_loop_eq body s c
    have B := compileProg_frame body (loopSetupState s c)
      (s.blocks.length + 1)
    obtain ⟨B1, B2, B3, B4⟩ := B
    rw [loopSetupState_length] at B1 B2
    rw [heq]
    refine ⟨?_, Or.inr (by omega), ?_, ?_⟩
    · rw [length_setTerm]
      omega
    · intro j hj hne
      rw [getBlock_setTerm_ne _ _ _ _ (by rcases B2 with h | h <;> omega)]
      rw [B3 j (by rw [loopSetupState_length]; omega) (by omega)]
      exact getBlock_loopSetupState_old s c j hj hne
    · intro _
      rw [length_setTerm]
      omega

theorem compileProg_frame : ∀ (p : List BFInstruction) (s : CodegenState)
    (c : Nat),
    s.blocks.length ≤ ((compileProg p s c).1).blocks.length
    ∧ ((compileProg p s c).2 = c ∨
        s.blocks.length ≤ (compileProg p s c).2)
    ∧ (∀ j, j < s.blocks.length → j ≠ c →
        getBlock ((compileProg p s c).1) j = getBlock s j)
    ∧ (c < s.blocks.length →
        (compileProg p s c).2 < ((compileProg p s c).1).blocks.length)
  | [], s, c => ⟨le_refl _, Or.inl rfl, fun _ _ _ => rfl, fun h => h⟩
  | i :: rest, s, c => by
    have A := compileInst_frame i s c
    have B := compileProg_frame rest (compileInst i s c).1
      (compileInst i s c).2
    have hstep : compileProg (i :: rest) s c =
        compileProg rest (compileInst i s c).1 (compileInst i s c).2 := rfl
    rw [hstep]
    obtain ⟨A1, A2, A3, A4⟩ := A
    obtain ⟨B1, B2, B3, B4⟩ := B
    refine ⟨le_trans A1 B1, ?_, ?_, ?_⟩
    · rcases B2 with h | h
      · rw [h]
        exact A2
      · exact Or.inr (le_trans A1 h)
    · intro j hj hne
      have hne2 : j ≠ (compileInst i s c).2 := by
        rcases A2 with h | h <;> omega
      rw [B3 j (by omega) hne2]
      exact A3 j hj hne
    · intro hc
      exact B4 (A4 hc)

end

theorem straight_line_shape (s : CodegenState) (bb : Nat) (ops : List Op) :
    (∀ j, j ≠ bb → getBlock (appendOps s bb ops) j = getBlock s j)
    ∧ (∃ extra, getBlock (appendOps s bb ops) bb =
        ⟨(getBlock s bb).ops ++ extra, (getBlock s bb).term⟩) := by
  constructor
  · intro j hne
    exact getBlock_appendOps_ne _ _ _ _ hne
  · by_cases hlt : bb < s.blocks.length
    · exact ⟨ops, getBlock_appendOps_self s bb ops hlt⟩
    · refine ⟨[], ?_⟩
      rw [appendOps_of_le s bb ops (by omega)]
      simp

/-- C1: lowering a `BFLoop` creates exactly three fresh basic blocks —
header (`n`, where `n` is the number of existing blocks), body
(`n + 1`) and after (`n + 2`) — the block that was current beforehand
ends with an unconditional branch to the header; the header loads the
cell pointer, computes the current cell's address, loads its value,
compares it to zero, and conditionally branches to after (zero) or
body (non-zero); the inner program is lowered starting in the body
block threading the current block forward, the final body block ends
with an unconditional branch back to the header, and the after block —
still empty and unterminated — is returned as the new current block,
with every other pre-existing block untouched.  Straight-line
instructions append their operations to the given block, change no
other block, and return that same block. -/
theorem lowering_loop_three_blocks :
    (∀ (inst : BFInstruction) (s : CodegenState) (bb : Nat),
      instStraightLine inst = true →
      (compileInst inst s bb).2 = bb
      ∧ ((compileInst inst s bb).1).blocks.length = s.blocks.length
      ∧ (∀ j, j ≠ bb →
          getBlock ((compileInst inst s bb).1) j = getBlock s j)
      ∧ (∃ extra, getBlock ((compileInst inst s bb).1) bb =
          ⟨(getBlock s bb).ops ++ extra, (getBlock s bb).term⟩))
    ∧ (∀ (body : List BFInstruction) (s : CodegenState) (bb : Nat),
        bb < s.blocks.length →
        (compileInst (.loop body) s bb).2 = s.blocks.length + 2
        ∧ s.blocks.length + 3 ≤
            ((compileInst (.loop body) s bb).1).blocks.length
        ∧ getBlock ((compileInst (.loop body) s bb).1) bb =
            ⟨(getBlock s bb).ops, some (.br s.blocks.length)⟩
        ∧ getBlock ((compileInst (.loop body) s bb).1) s.blocks.length =
            ⟨loopHeaderOps,
              some (.condBr (s.blocks.length + 2) (s.blocks.length + 1))⟩
        ∧ getBlock ((compileInst (.loop body) s bb).1)
            (s.blocks.length + 2) = ⟨[], none⟩
        ∧ (∀ j, j < s.blocks.length → j ≠ bb →
            getBlock ((compileInst (.loop body) s bb).1) j = getBlock s j)
        ∧ compileInst (.loop body) s bb =
            (setTerm
              (compileProg body (loopSetupState s bb)
                (s.blocks.length + 1)).1
              (compileProg body (loopSetupState s bb)
                (s.blocks.length + 1)).2
              (.br s.blocks.length),
             s.blocks.length + 2)
        ∧ getBlock ((compileInst (.loop body) s bb).1)
            (compileProg body (loopSetupState s bb)
              (s.blocks.length + 1)).2 =
            ⟨(getBlock
                (compileProg body (loopSetupState s bb)
                  (s.blocks.length + 1)).1
                (compileProg body (loopSetupState s bb)
                  (s.blocks.length + 1)).2).ops,
             some (.br s.blocks.length)⟩) := by
  constructor
  · intro inst s bb hstraight
    cases inst with
    | loop body => exact absurd hstraight (by simp [instStraightLine])
    | increment n =>
      exact ⟨rfl, length_appendOps s bb (incrementOps n),
        (straight_line_shape s bb (incrementOps n)).1,
        (straight_line_shape s bb (incrementOps n)).2⟩
    | dataIncrement n =>
      exact ⟨rfl, length_appendOps s bb (dataIncrementOps n),
        (straight_line_shape s bb (dataIncrementOps n)).1,
        (straight_line_shape s bb (dataIncrementOps n)).2⟩
    | read =>
      exact ⟨rfl, length_appendOps s bb readOps,
        (straight_line_shape s bb readOps).1,
        (straight_line_shape s bb readOps).2⟩
    | write =>
      exact ⟨rfl, length_appendOps s bb writeOps,
        (straight_line_shape s bb writeOps).1,
        (straight_line_shape s bb writeOps).2⟩
    | set v =>
      exact ⟨rfl, length_appendOps s bb (setOps v),
        (straight_line_shape s bb (setOps v)).1,
        (straight_line_shape s bb (setOps v)).2⟩
  · intro body s bb hbb
    have heq := compileInst_loop_eq body s bb
    obtain ⟨B1, B2, B3, B4⟩ := compileProg_frame body (loopSetupState s bb)
      (s.blocks.length + 1)
    rw [loopSetupState_length] at B1 B2
    have hend : (compileProg body (loopSetupState s bb)
        (s.blocks.length + 1)).2 <
        ((compileProg body (loopSetupState s bb)
          (s.blocks.length + 1)).1).blocks.length := by
      apply B4
      rw [loopSetupState_length]
      omega
    refine ⟨by rw [heq], ?_, ?_, ?_, ?_, ?_, heq, ?_⟩
    · rw [heq, length_setTerm]
      omega
    · rw [heq]
      rw [getBlock_setTerm_ne _ _ _ _ (by rcases B2 with h | h <;> omega)]
      rw [B3 bb (by rw [loopSetupState_length]; omega) (by omega)]
      exact getBlock_loopSetupState_bb s bb hbb
    · rw [heq]
      rw [getBlock_setTerm_ne _ _ _ _ (by rcases B2 with h | h <;> omega)]
      rw [B3 s.blocks.length (by rw [loopSetupState_length]; omega)
        (by omega)]
      exact getBlock_loopSetupState_header s bb hbb
    · rw [heq]
      rw [getBlock_setTerm_ne _ _ _ _ (by rcases B2 with h | h <;> omega)]
      rw [B3 (s.blocks.length + 2) (by rw [loopSetupState_length]; omega)
        (by omega)]
      exact getBlock_loopSetupState_after s bb
    · intro j hj hne
      rw [heq]
      rw [getBlock_setTerm_ne _ _ _ _ (by rcases B2 with h | h <;> omega)]
      rw [B3 j (by rw [loopSetupState_length]; omega) (by omega)]
      exact getBlock_loopSetupState_old s bb j hj hne
    · rw [heq]
      exact getBlock_setTerm_self _ _ _ hend

/-- Witness for C1 at concrete inputs: lowering `BFRead` into block 0
of a one-block function keeps block 0 current, and lowering
`BFLoop [BFRead]` there returns block 3 = 1 + 2 (the after block). -/
theorem lowering_loop_three_blocks_witness :
    (compileInst .read ⟨[⟨[], none⟩]⟩ 0).2 = 0
    ∧ (compileInst (.loop [.read]) ⟨[⟨[], none⟩]⟩ 0).2 = 3 := by
  have h := lowering_loop_three_blocks
  refine ⟨(h.1 .read ⟨[⟨[], none⟩]⟩ 0 rfl).1, ?_⟩
  have h2 := (h.2 [.read] ⟨[⟨[], none⟩]⟩ 0 (by simp)).1
  simpa using h2

end Bfc
